import Mathlib

/-!
Verification development for the circles.io synthetic-research engine
(`orenda_bridge/synthetic_engine/ground_truth.py` and
`orenda_bridge/synthetic_engine/research_engine.py`).

The Python code is shallowly embedded: dictionaries with insertion order
become association lists, `collections.Counter` becomes an insertion-ordered
association list with an `incr` operation, the stable sort used by
`sorted(..., reverse=True)` and `Counter.most_common` becomes the stable
Mathlib `List.insertionSort` with a descending key relation, and the seeded
`random.Random` stream becomes an abstract deterministic draw source
(`RandSource`): `random.Random(seed)` is a pure function of the seed, so the
stream of `_randbelow` results is modelled as a function from call index and
bound to a value below the bound.  Strings are handled through their
character lists so that every operation reduces in the kernel; Python string
semantics (lower-casing, whitespace splitting, alphanumeric tests) are
modelled at ASCII fidelity.  Python `round(x, 2)` on the float average is
modelled by exact rational arithmetic with round-half-to-even.
-/

/- ------------------------------------------------------------------ -/
/- JSON payloads and truthiness, for the corpus loader                 -/
/- ------------------------------------------------------------------ -/

/-- A JSON-like value, the parse result of `json.loads`.  Numbers are
modelled as integers; no claim depends on fractional numbers. -/
inductive Json where
  | null : Json
  | bool (b : Bool) : Json
  | num (n : Int) : Json
  | str (s : String) : Json
  | arr (elems : List Json) : Json
  | obj (fields : List (String × Json)) : Json

/-- First-match lookup in an association list (Python `dict` access;
payload objects are assumed to have distinct keys, as JSON parsing keeps
one binding per key). -/
def alistGet {β : Type} (l : List (String × β)) (k : String) : Option β :=
  match l with
  | [] => none
  | (k', v) :: rest => if k' = k then some v else alistGet rest k

/-- Lookup with a default (Python `dict.get(k, d)`). -/
def alistGetD {β : Type} (l : List (String × β)) (k : String) (d : β) : β :=
  match alistGet l k with
  | some v => v
  | none => d

/-- Python truthiness of a JSON value. -/
def truthy : Json → Bool
  | .null => false
  | .bool b => b
  | .num n => n ≠ 0
  | .str s => s ≠ ""
  | .arr elems => ¬elems.isEmpty
  | .obj fields => ¬fields.isEmpty

/-- The exceptions `GroundTruthCorpus._load` can raise. -/
inductive LoadErr where
  | fileNotFound (msg : String)
  | valueErr (msg : String)
  | keyErr (key : String)
  | attrErr (msg : String)
  | typeErr (msg : String)

/- ------------------------------------------------------------------ -/
/- Loaded data model (`ground_truth.py`)                               -/
/- ------------------------------------------------------------------ -/

/-- A turn exactly as stored by `_load`: the Python `Turn` dataclass keeps
whatever values the payload carried, so both fields stay JSON values here. -/
structure JTurn where
  speaker : Json
  text : Json

/-- A session exactly as stored by `_load`. -/
structure JSession where
  session_id : Json
  source_file : Json
  turns : List JTurn

/-- The turn list of one session entry:
`[Turn(speaker=turn["speaker"], text=turn["text"]) for turn in ...
  if isinstance(turn, dict) and turn.get("text")]`.
A truthy `text` with no `speaker` key raises `KeyError` (Python evaluates
`turn["speaker"]` first). -/
def loadTurns : List Json → Except LoadErr (List JTurn)
  | [] => .ok []
  | t :: ts =>
    match t with
    | .obj fields =>
      if truthy (alistGetD fields "text" Json.null) then
        match alistGet fields "speaker" with
        | none => .error (.keyErr "speaker")
        | some sp =>
          match alistGet fields "text" with
          | none => .error (.keyErr "text")
          | some tx =>
            match loadTurns ts with
            | .error e => .error e
            | .ok rest => .ok (⟨sp, tx⟩ :: rest)
      else loadTurns ts
    | _ => loadTurns ts

/-- Python iteration over `item.get("turns", [])`: lists yield elements,
strings yield one-character strings, dicts yield their keys, everything
else raises `TypeError`.  Non-dict elements are filtered out downstream. -/
def iterElems : Json → Except LoadErr (List Json)
  | .arr elems => .ok elems
  | .str s => .ok (s.data.map fun c => Json.str (String.mk [c]))
  | .obj fields => .ok (fields.map fun p => Json.str p.1)
  | _ => .error (.typeErr "object is not iterable")

/-- The per-item loop body of `_load`: a non-dict item raises
`AttributeError` on `.get`; otherwise missing `session_id` / `source_file`
default to the string `"unknown"` and a missing `turns` key defaults to an
empty list. -/
def loadItems : List Json → Except LoadErr (List JSession)
  | [] => .ok []
  | item :: rest =>
    match item with
    | .obj fields =>
      match iterElems (alistGetD fields "turns" (Json.arr [])) with
      | .error e => .error e
      | .ok telems =>
        match loadTurns telems with
        | .error e => .error e
        | .ok turns =>
          match loadItems rest with
          | .error e => .error e
          | .ok tail =>
            .ok ({ session_id := alistGetD fields "session_id" (Json.str "unknown"),
                   source_file := alistGetD fields "source_file" (Json.str "unknown"),
                   turns := turns } :: tail)
    | _ => .error (.attrErr "object has no attribute get")

/-- The check `if "sessions" not in raw or not isinstance(raw["sessions"], list)`.
For a dict this is a key lookup; for a list, `in` is element membership and a
hit leads to `raw["sessions"]` raising `TypeError`; for a string, `in` is a
substring test with the same follow-up; other values make `in` itself raise
`TypeError`. -/
def checkSessions : Json → Except LoadErr (List Json)
  | .obj fields =>
    match alistGet fields "sessions" with
    | some (.arr elems) => .ok elems
    | some _ => .error (.valueErr "ground_truth_sessions.json must contain a sessions list")
    | none => .error (.valueErr "ground_truth_sessions.json must contain a sessions list")
  | .arr elems =>
    if elems.any (fun j => match j with | .str s => s = "sessions" | _ => false) then
      .error (.typeErr "list indices must be integers")
    else .error (.valueErr "ground_truth_sessions.json must contain a sessions list")
  | .str s =>
    if (s.splitOn "sessions").length > 1 then
      .error (.typeErr "string indices must be integers")
    else .error (.valueErr "ground_truth_sessions.json must contain a sessions list")
  | _ => .error (.typeErr "argument is not iterable")

/-- `GroundTruthCorpus._load`.  `pathExists` models `self.path.exists()`;
`parsed` is the result of `json.loads` on the file text (`none` when the
text is not valid JSON, which raises `JSONDecodeError`, a `ValueError`). -/
def loadCorpus (pathExists : Bool) (parsed : Option Json) : Except LoadErr (List JSession) :=
  if pathExists then
    match parsed with
    | none => .error (.valueErr "Expecting value")
    | some raw =>
      match checkSessions raw with
      | .error e => .error e
      | .ok items => loadItems items
  else
    .error (.fileNotFound "Ground truth file not found. Run python process_ground_truth.py first.")

/- ------------------------------------------------------------------ -/
/- Well-typed data model used by the engine                            -/
/- ------------------------------------------------------------------ -/

/-- `Turn` with string fields, the intended (well-formed) shape. -/
structure Turn where
  speaker : String
  text : String
deriving DecidableEq

/-- `Session` with string fields. -/
structure Session where
  session_id : String
  source_file : String
  turns : List Turn
deriving DecidableEq

/-- A loaded turn is well-formed when both stored values are strings. -/
def toTurn (t : JTurn) : Option Turn :=
  match t.speaker, t.text with
  | .str sp, .str tx => some ⟨sp, tx⟩
  | _, _ => none

/-- All-or-nothing conversion of a loaded turn list. -/
def toTurns : List JTurn → Option (List Turn)
  | [] => some []
  | t :: ts =>
    match toTurn t, toTurns ts with
    | some turn, some turns => some (turn :: turns)
    | _, _ => none

/-- A loaded session is well-formed when all stored values are strings. -/
def toSession (s : JSession) : Option Session :=
  match s.session_id, s.source_file, toTurns s.turns with
  | .str sid, .str src, some turns => some ⟨sid, src, turns⟩
  | _, _, _ => none

/-- All-or-nothing conversion of a loaded session list. -/
def toSessions : List JSession → Option (List Session)
  | [] => some []
  | js :: rest =>
    match toSession js, toSessions rest with
    | some s, some ss => some (s :: ss)
    | _, _ => none

/-- Whether a turn entry of the payload is kept by `_load`:
`isinstance(turn, dict) and turn.get("text")`. -/
def keptTurn (j : Json) : Bool :=
  match j with
  | .obj fields => truthy (alistGetD fields "text" Json.null)
  | _ => false

/-- How many turn entries of a session entry `_load` keeps: the number of
records with truthy text among the iterated `turns` value. -/
def keptTurnCount (item : Json) : Nat :=
  match item with
  | .obj fields =>
    match iterElems (alistGetD fields "turns" (Json.arr [])) with
    | .ok telems => telems.countP keptTurn
    | .error _ => 0
  | _ => 0

/-- A turn entry that cannot make `_load` raise: any non-record (it is
filtered out), or a record that is either not kept or carries a
`speaker` key. -/
def goodTurnElem (j : Json) : Bool :=
  match j with
  | .obj fields =>
    !truthy (alistGetD fields "text" Json.null) || (alistGet fields "speaker").isSome
  | _ => true

/-- A session entry that cannot make `_load` raise: a record whose `turns`
value (defaulting to an empty list) is iterable without a `TypeError`, with
every element from a `turns` list good in the sense of `goodTurnElem`. -/
def goodItem (j : Json) : Bool :=
  match j with
  | .obj fields =>
    match alistGetD fields "turns" (Json.arr []) with
    | .arr telems => telems.all goodTurnElem
    | .str _ => true
    | .obj _ => true
    | _ => false
  | _ => false

/-- `Turn.is_user`: `self.speaker.lower().startswith("user")`. -/
def is_user (t : Turn) : Bool :=
  "user".data.isPrefixOf (t.speaker.data.map Char.toLower)

/-- `Session.user_turns`. -/
def user_turns (s : Session) : List Turn :=
  s.turns.filter is_user

/-- `Session.total_tokens_estimate`:
`sum(len(turn.text) for turn in self.turns) // 4`. -/
def total_tokens_estimate (s : Session) : Nat :=
  ((s.turns.map fun t => t.text.length).sum) / 4

/-- `GroundTruthCorpus.total_turns`. -/
def total_turns (sessions : List Session) : Nat :=
  ((sessions.map fun s => s.turns.length).sum)

/-- `GroundTruthCorpus.total_token_estimate`. -/
def total_token_estimate (sessions : List Session) : Nat :=
  ((sessions.map total_tokens_estimate).sum)

/-- `GroundTruthCorpus.head`. -/
def head (sessions : List Session) (n : Nat) : List Session :=
  sessions.take n

/- ------------------------------------------------------------------ -/
/- Counters and the Python stable sort                                 -/
/- ------------------------------------------------------------------ -/

/-- An insertion-ordered counter (`collections.Counter` /
`collections.defaultdict(int)`): `incr c k n` is `c[k] += n` — an existing
key keeps its position, a new key is appended. -/
def incr {α : Type} [DecidableEq α] (c : List (α × Nat)) (k : α) (n : Nat) : List (α × Nat) :=
  match c with
  | [] => [(k, n)]
  | (k', v) :: rest => if k' = k then (k', v + n) :: rest else (k', v) :: incr rest k n

/-- Counter lookup, with the `defaultdict` / missing-key default of 0. -/
def countOf {α : Type} [DecidableEq α] (c : List (α × Nat)) (k : α) : Nat :=
  match c with
  | [] => 0
  | (k', v) :: rest => if k' = k then v else countOf rest k

/-- The descending-count ordering used by `sorted(..., key=itemgetter(1),
reverse=True)` and `Counter.most_common`. -/
def descBySnd {α : Type} (a b : α × Nat) : Prop := b.2 ≤ a.2

instance {α : Type} : DecidableRel (descBySnd (α := α)) := fun a b =>
  inferInstanceAs (Decidable (b.2 ≤ a.2))

instance {α : Type} : IsTotal (α × Nat) descBySnd :=
  ⟨fun a b => (Nat.le_total b.2 a.2).elim Or.inl Or.inr⟩

instance {α : Type} : IsTrans (α × Nat) descBySnd :=
  ⟨fun _ _ _ h1 h2 => Nat.le_trans h2 h1⟩

/-- CPython `sorted(pairs, key=itemgetter(1), reverse=True)`: a stable
sort placing larger counts first, equal counts in first-encountered order.
`List.insertionSort` with this relation is stable, hence extensionally equal
to the CPython timsort. -/
def sortDescBySnd {α : Type} (l : List (α × Nat)) : List (α × Nat) :=
  l.insertionSort descBySnd

/-- `Counter.most_common()` (no argument): all entries, stably sorted by
descending count. -/
def most_common {α : Type} (c : List (α × Nat)) : List (α × Nat) :=
  sortDescBySnd c

/- ------------------------------------------------------------------ -/
/- Research engine (`research_engine.py`)                              -/
/- ------------------------------------------------------------------ -/

/-- The static `CATEGORY_KEYWORDS` taxonomy, in dict insertion order. -/
def CATEGORY_KEYWORDS : List (String × List String) :=
  [("money", ["money", "income", "earn", "financial", "pricing", "cost"]),
   ("career", ["career", "work", "job", "profession", "freelance", "consulting"]),
   ("location", ["where", "city", "place", "country", "move", "location"]),
   ("care", ["child", "care", "nurture", "support", "heal"]),
   ("creative", ["art", "music", "creative", "design", "paint", "write"]),
   ("movement", ["body", "movement", "somatic", "dance", "physical"])]

/-- `SessionProfile`. -/
structure SessionProfile where
  session_id : String
  dominant_categories : List String
  top_keywords : List String
  representative_user_lines : List String
  token_estimate : Nat
deriving DecidableEq

/-- Split a character list into maximal whitespace-free words
(Python `str.split()` with no argument, at ASCII fidelity). -/
def splitWords : List Char → List Char → List (List Char)
  | [], cur => if cur.isEmpty then [] else [cur.reverse]
  | c :: cs, cur =>
    if c.isWhitespace then
      if cur.isEmpty then splitWords cs [] else cur.reverse :: splitWords cs []
    else splitWords cs (c :: cur)

/-- `_simple_tokenize`:
`text.lower().replace("/", " ").replace("\n", " ").split()`, then keep the
alphanumeric characters of each raw token and drop empty results. -/
def simple_tokenize (text : String) : List String :=
  let replaced := (text.data.map Char.toLower).map fun c =>
    if c = '/' ∨ c = '\n' then ' ' else c
  (splitWords replaced []).filterMap fun w =>
    let token := w.filter Char.isAlphanum
    if token.isEmpty then none else some (String.mk token)

/-- The inner loop of `_extract_keywords`: count the qualifying
tokens into the running counter (tokens of length ≤ 3 are skipped). -/
def countTokens (c : List (String × Nat)) (tokens : List String) : List (String × Nat) :=
  tokens.foldl (fun c token => if token.length ≤ 3 then c else incr c token 1) c

/-- The raw per-session keyword counter of `_extract_keywords`, before
`most_common()`. -/
def sessionCounter (s : Session) : List (String × Nat) :=
  (user_turns s).foldl (fun c turn => countTokens c (simple_tokenize turn.text)) []

/-- `_extract_keywords`: the session counter in `most_common()` order. -/
def extract_keywords (s : Session) : List (String × Nat) :=
  most_common (sessionCounter s)

/-- The `hits` dict built by `_detect_categories`: iterating categories in
taxonomy order, a category gets an entry exactly when some session keyword
is in its vocabulary, and its value is the sum of the matching frequencies. -/
def detectHits (keywords : List (String × Nat)) : List (String × Nat) :=
  CATEGORY_KEYWORDS.filterMap fun cv =>
    if (keywords.filter fun p => cv.2.contains p.1).isEmpty then none
    else some (cv.1, ((keywords.filter fun p => cv.2.contains p.1).map Prod.snd).sum)

/-- `_detect_categories`. -/
def detect_categories (keywords : List (String × Nat)) : List String :=
  let hits := detectHits keywords
  if hits.isEmpty then ["general"]
  else ((sortDescBySnd hits).take 3).map Prod.fst

/-- The summed trigger weight of one category over a keyword list (the
value `hits[category]` would hold). -/
def catWeight (c : String) (keywords : List (String × Nat)) : Nat :=
  ((keywords.filter fun p => (alistGetD CATEGORY_KEYWORDS c []).contains p.1).map Prod.snd).sum

/-- Whitespace normalization in `_representative_user_lines`:
`" ".join(turn.text.strip().split())`. -/
def normalizeWs (text : String) : String :=
  String.intercalate " " ((splitWords text.data []).map String.mk)

/-- `_representative_user_lines`: the first `limit` non-empty normalized
user lines (the loop breaks as soon as `limit` lines are collected). -/
def representative_user_lines (s : Session) (limit : Nat) : List String :=
  go (user_turns s) []
where
  go : List Turn → List String → List String
    | [], acc => acc.reverse
    | turn :: rest, acc =>
      let cleaned := normalizeWs turn.text
      let acc' := if cleaned ≠ "" then cleaned :: acc else acc
      if limit ≤ acc'.length then acc'.reverse else go rest acc'

/-- The profile built for one session inside `generate_archetypes`. -/
def mkProfile (s : Session) : SessionProfile :=
  let keywords := extract_keywords s
  { session_id := s.session_id,
    dominant_categories := detect_categories keywords,
    top_keywords := (keywords.take 8).map Prod.fst,
    representative_user_lines := representative_user_lines s 3,
    token_estimate := total_tokens_estimate s }

/-- The derivation loop of `generate_archetypes`: one profile per session,
sessions with no turns skipped by `continue`. -/
def deriveProfiles (corpus : List Session) : List SessionProfile :=
  corpus.filterMap fun s => if s.turns.isEmpty then none else some (mkProfile s)

/-- The seeded pseudo-random source.  `random.Random(seed)` is a pure
function of the seed: `val i n` is the result of the i-th internal
`_randbelow(n)` call of that stream, always below the bound. -/
structure RandSource where
  val : Nat → Nat → Nat
  lt : ∀ i n, 0 < n → val i n < n

/-- A concrete stream (every draw is 0), standing in for one fixed seed. -/
def zeroSrc : RandSource := ⟨fun _ _ => 0, fun _ _ h => h⟩

/-- `SyntheticResearchEngine` state: the corpus, the seeded source with its
call counter, and the `_profiles` cache (empty list = not yet populated,
matching Python truthiness of `self._profiles`). -/
structure Engine where
  corpus : List Session
  src : RandSource
  rngIdx : Nat
  profiles : List SessionProfile

/-- `SyntheticResearchEngine.__init__`: fresh call counter, empty cache. -/
def mkEngine (corpus : List Session) (src : RandSource) : Engine :=
  { corpus := corpus, src := src, rngIdx := 0, profiles := [] }

/-- `generate_archetypes`: return the cache prefix when the cache is
non-empty, otherwise derive, cache, and return the prefix. -/
def generate_archetypes (e : Engine) (max_archetypes : Nat) : List SessionProfile × Engine :=
  if ¬e.profiles.isEmpty then (e.profiles.take max_archetypes, e)
  else
    let profiles := deriveProfiles e.corpus
    (profiles.take max_archetypes, { e with profiles := profiles })

/-- The loop of `simulate_sessions`, threading the draw counter.
`random.choice` on an empty corpus raises `IndexError`; a drawn session
with no turns consumes the draw and emits nothing; otherwise
`randint(0, max(0, len(turns) - max_turns))` consumes a second draw and the
slice `turns[start : start + max_turns]` is emitted. -/
def simGo (corpus : List Session) (src : RandSource) :
    Nat → Nat → Nat → Except String (List (List Turn) × Nat)
  | 0, _, idx => .ok ([], idx)
  | count + 1, max_turns, idx =>
    if corpus.isEmpty then .error "Cannot choose from an empty sequence"
    else
      let session := corpus.getD (src.val idx corpus.length) ⟨"", "", []⟩
      if session.turns.isEmpty then
        simGo corpus src count max_turns (idx + 1)
      else
        let start := src.val (idx + 1) (session.turns.length - max_turns + 1)
        match simGo corpus src count max_turns (idx + 2) with
        | .error e => .error e
        | .ok (rest, idx') => .ok (((session.turns.drop start).take max_turns) :: rest, idx')

/-- `simulate_sessions`. -/
def simulate_sessions (e : Engine) (count max_turns : Nat) :
    Except String (List (List Turn) × Engine) :=
  match simGo e.corpus e.src count max_turns e.rngIdx with
  | .error err => .error err
  | .ok (res, idx') => .ok (res, { e with rngIdx := idx' })

/-- Round-half-to-even of a rational to an integer (Python `round`). -/
def roundHalfEven (q : ℚ) : ℤ :=
  let f := ⌊q⌋
  let frac := q - (f : ℚ)
  if frac < 1/2 then f
  else if 1/2 < frac then f + 1
  else if f % 2 = 0 then f else f + 1

/-- Python `round(x, 2)`, over exact rationals. -/
def pyRound2 (q : ℚ) : ℚ :=
  (roundHalfEven (q * 100) : ℚ) / 100

/-- The record returned by `analyze_sessions`. -/
structure Analysis where
  total_sessions : Nat
  total_turns : Nat
  avg_turns_per_session : ℚ
  token_estimate : Nat
  top_keywords : List (String × Nat)
  category_spread : List (String × Nat)
deriving DecidableEq

/-- `_aggregate_categories`: one increment per dominant category of every
cached profile (the cache being populated with `max_archetypes=len(corpus)`). -/
def aggregate_categories (e : Engine) : List (String × Nat) × Engine :=
  let (profiles, e') := generate_archetypes e e.corpus.length
  (profiles.foldl (fun counts p =>
    p.dominant_categories.foldl (fun counts category => incr counts category 1) counts) [],
   e')

/-- The corpus-wide keyword counter of `analyze_sessions`: per-session
`_extract_keywords` results summed into one counter. -/
def mergedCounter (corpus : List Session) : List (String × Nat) :=
  corpus.foldl (fun c s => (extract_keywords s).foldl (fun c p => incr c p.1 p.2) c) []

/-- `analyze_sessions`. -/
def analyze_sessions (e : Engine) : Analysis × Engine :=
  let total_sessions := e.corpus.length
  let tturns := total_turns e.corpus
  let avg : ℚ := if total_sessions = 0 then 0 else (tturns : ℚ) / (total_sessions : ℚ)
  let (spread, e') := aggregate_categories e
  ({ total_sessions := total_sessions,
     total_turns := tturns,
     avg_turns_per_session := pyRound2 avg,
     token_estimate := total_token_estimate e.corpus,
     top_keywords := (most_common (mergedCounter e.corpus)).take 12,
     category_spread := spread },
   e')

/-- The static per-category suggestion list for `"general"`. -/
def generalMoves : List String :=
  ["Stay slow; mirror back phrasing instead of inventing agendas.",
   "Track relationship depth to modulate question frequency."]

/-- The static suggestion table of `_suggest_moves_for_category`. -/
def SUGGESTIONS : List (String × List String) :=
  [("money",
    ["Map income streams mentioned in the chart.",
     "Ask for recent earning experiments before offering ideas."]),
   ("career",
    ["Contrast house rulers related to work vs. meaning.",
     "Offer a pacing cue before diving into 10th-house themes."]),
   ("location",
    ["Relate planetary dignities to geographies or climates.",
     "Invite the user to sense how place affects their nervous system."]),
   ("care",
    ["Notice Moon/6th-house cues about service orientation.",
     "Use guarded questions about emotional capacity."]),
   ("creative",
    ["Surface mythic references tied to Venus/Mercury placements.",
     "Balance praise with an observation about creative pacing."]),
   ("movement",
    ["Tie Mars/ASC signatures to somatic practices.",
     "Offer a pause for the user to notice bodily cues."]),
   ("general", generalMoves)]

/-- `_suggest_moves_for_category`: `suggestions.get(category, suggestions["general"])`. -/
def suggest_moves_for_category (category : String) : List String :=
  (alistGet SUGGESTIONS category).getD generalMoves

/-- Python `str.title()` at ASCII fidelity: upper-case a letter that follows
a non-letter, lower-case the rest. -/
def pyTitle (s : String) : String :=
  String.mk (go s.data false)
where
  go : List Char → Bool → List Char
    | [], _ => []
    | c :: cs, prevAlpha =>
      (if prevAlpha then c.toLower else c.toUpper) :: go cs c.isAlpha

/-- One record emitted by `generate_methods`. -/
structure MethodRec where
  method : String
  focus : String
  evidence : String
  suggested_moves : List String
deriving DecidableEq

/-- The record built for one (category, weight) pair. -/
def mkMethodRec (p : String × Nat) : MethodRec :=
  { method := pyTitle p.1 ++ " Thread",
    focus := p.1,
    evidence := Nat.repr p.2 ++ " mentions across ground-truth sessions",
    suggested_moves := suggest_moves_for_category p.1 }

/-- `generate_methods`. -/
def generate_methods (e : Engine) (max_methods : Nat) : List MethodRec × Engine :=
  let (analysis, e') := analyze_sessions e
  (((sortDescBySnd analysis.category_spread).take max_methods).map mkMethodRec, e')

/-- All tokens of the user turns of a session, in order (the token stream that
`_extract_keywords` counts, before the length filter). -/
def sessionTokens (s : Session) : List String :=
  ((user_turns s).map fun t => simple_tokenize t.text).flatten

/-- The one-session corpus of the worked example in the specification. -/
def sampleSession : Session :=
  { session_id := "s1",
    source_file := "unknown",
    turns := [{ speaker := "user", text := "I worry about pricing and income this year" },
              { speaker := "assistant", text := "..." }] }


/- ------------------------------------------------------------------ -/
/- Counter lemmas                                                      -/
/- ------------------------------------------------------------------ -/

theorem countOf_incr {α : Type} [DecidableEq α] (c : List (α × Nat)) (k k' : α) (n : Nat) :
    countOf (incr c k n) k' = countOf c k' + if k = k' then n else 0 := by
  induction c with
  | nil =>
    by_cases h : k = k' <;> simp [incr, countOf, h]
  | cons hd tl ih =>
    obtain ⟨k1, v⟩ := hd
    by_cases h1 : k1 = k
    · subst h1
      by_cases h2 : k1 = k'
      · subst h2
        simp [incr, countOf]
      · have hk : ¬k1 = k' := h2
        simp [incr, countOf, h2]
    · by_cases h2 : k1 = k'
      · subst h2
        have hk : ¬k = k1 := fun h => h1 h.symm
        simp [incr, countOf, h1, hk]
      · simp [incr, countOf, h1, h2, ih]

theorem countOf_foldl_incr {α : Type} [DecidableEq α] (ps : List (α × Nat))
    (c : List (α × Nat)) (k : α) :
    countOf (ps.foldl (fun c p => incr c p.1 p.2) c) k
      = countOf c k + ((ps.filter fun p => p.1 = k).map Prod.snd).sum := by
  induction ps generalizing c with
  | nil => simp
  | cons p ps ih =>
    simp only [List.foldl_cons, ih, countOf_incr, List.filter_cons]
    by_cases h : p.1 = k <;> simp [h, Nat.add_assoc]

theorem mem_keys_incr {α : Type} [DecidableEq α] (c : List (α × Nat)) (k a : α) (n : Nat) :
    a ∈ (incr c k n).map Prod.fst ↔ a ∈ c.map Prod.fst ∨ a = k := by
  induction c with
  | nil => simp [incr]
  | cons hd tl ih =>
    obtain ⟨k1, v⟩ := hd
    by_cases h1 : k1 = k
    · subst h1
      simp [incr]
      tauto
    · simp [incr, h1, ih]
      tauto

theorem nodupKeys_incr {α : Type} [DecidableEq α] (c : List (α × Nat)) (k : α) (n : Nat)
    (h : (c.map Prod.fst).Nodup) : ((incr c k n).map Prod.fst).Nodup := by
  induction c with
  | nil => simp [incr]
  | cons hd tl ih =>
    obtain ⟨k1, v⟩ := hd
    simp only [List.map_cons, List.nodup_cons] at h
    by_cases h1 : k1 = k
    · subst h1
      simpa [incr] using h
    · simp only [incr, if_neg h1, List.map_cons, List.nodup_cons, mem_keys_incr]
      refine ⟨?_, ih h.2⟩
      rintro (hm | hm)
      · exact h.1 hm
      · exact h1 hm

theorem filter_key_eq_nil {α : Type} [DecidableEq α] (c : List (α × Nat)) (k : α)
    (h : k ∉ c.map Prod.fst) : (c.filter fun p => p.1 = k) = [] := by
  induction c with
  | nil => rfl
  | cons hd tl ih =>
    simp only [List.map_cons, List.mem_cons] at h
    push_neg at h
    have h1 : ¬hd.1 = k := fun he => h.1 he.symm
    simp [List.filter_cons, h1, ih h.2]

theorem countOf_eq_sum_filter {α : Type} [DecidableEq α] (c : List (α × Nat)) (k : α)
    (h : (c.map Prod.fst).Nodup) :
    ((c.filter fun p => p.1 = k).map Prod.snd).sum = countOf c k := by
  induction c with
  | nil => simp [countOf]
  | cons hd tl ih =>
    obtain ⟨k1, v⟩ := hd
    simp only [List.map_cons, List.nodup_cons] at h
    by_cases h1 : k1 = k
    · subst h1
      simp [List.filter_cons, countOf, filter_key_eq_nil tl k1 h.1]
    · simp [List.filter_cons, countOf, h1, ih h.2]

theorem countOf_perm {α : Type} [DecidableEq α] {c c' : List (α × Nat)} (hp : c.Perm c')
    (h : (c.map Prod.fst).Nodup) (k : α) : countOf c k = countOf c' k := by
  rw [← countOf_eq_sum_filter c k h, ← countOf_eq_sum_filter c' k ((hp.map Prod.fst).nodup_iff.mp h)]
  exact ((hp.filter _).map Prod.snd).sum_eq

/- ------------------------------------------------------------------ -/
/- Tokenizer and session-counter lemmas                                -/
/- ------------------------------------------------------------------ -/

theorem countOf_countTokens (toks : List String) (c : List (String × Nat)) (k : String) :
    countOf (countTokens c toks) k
      = countOf c k + if 3 < k.length then toks.count k else 0 := by
  induction toks generalizing c with
  | nil => by_cases h : 3 < k.length <;> simp [countTokens, h]
  | cons t ts ih =>
    simp only [countTokens, List.foldl_cons] at *
    by_cases ht : t.length ≤ 3
    · rw [if_pos ht, ih]
      by_cases hk : 3 < k.length
      · have htk : ¬t = k := by
          intro he
          subst he
          omega
        simp [hk, List.count_cons, htk]
      · simp [hk]
    · rw [if_neg ht, ih, countOf_incr]
      by_cases hk : 3 < k.length
      · by_cases htk : t = k
        · subst htk
          simp [hk, List.count_cons]
          omega
        · simp [hk, List.count_cons, htk]
      · have htk : ¬t = k := by
          intro he
          subst he
          omega
        simp [hk, htk]

theorem nodupKeys_countTokens (toks : List String) (c : List (String × Nat))
    (h : (c.map Prod.fst).Nodup) : ((countTokens c toks).map Prod.fst).Nodup := by
  induction toks generalizing c with
  | nil => exact h
  | cons t ts ih =>
    simp only [countTokens, List.foldl_cons] at *
    by_cases ht : t.length ≤ 3
    · rw [if_pos ht]
      exact ih _ h
    · rw [if_neg ht]
      exact ih _ (nodupKeys_incr _ _ _ h)

theorem countOf_userFold (l : List Turn) (c : List (String × Nat)) (k : String) :
    countOf (l.foldl (fun c turn => countTokens c (simple_tokenize turn.text)) c) k
      = countOf c k
        + if 3 < k.length then ((l.map fun t => simple_tokenize t.text).flatten.count k) else 0 := by
  induction l generalizing c with
  | nil => by_cases h : 3 < k.length <;> simp [h]
  | cons t ts ih =>
    simp only [List.foldl_cons, ih, countOf_countTokens, List.map_cons, List.flatten_cons,
      List.count_append]
    by_cases h : 3 < k.length
    · simp [h]
      omega
    · simp [h]

theorem countOf_sessionCounter (s : Session) (k : String) :
    countOf (sessionCounter s) k
      = if 3 < k.length then (sessionTokens s).count k else 0 := by
  simpa [sessionCounter, sessionTokens, countOf] using countOf_userFold (user_turns s) [] k

theorem nodupKeys_sessionCounter (s : Session) :
    ((sessionCounter s).map Prod.fst).Nodup := by
  unfold sessionCounter
  generalize user_turns s = l
  have aux : ∀ (l : List Turn) (c : List (String × Nat)), (c.map Prod.fst).Nodup →
      ((l.foldl (fun c turn => countTokens c (simple_tokenize turn.text)) c).map Prod.fst).Nodup := by
    intro l
    induction l with
    | nil => intro c h; exact h
    | cons t ts ih =>
      intro c h
      simp only [List.foldl_cons]
      exact ih _ (nodupKeys_countTokens _ _ h)
  exact aux l [] (by simp)

/- ------------------------------------------------------------------ -/
/- Corpus-wide counter lemmas                                          -/
/- ------------------------------------------------------------------ -/

theorem extract_keywords_perm (s : Session) :
    (extract_keywords s).Perm (sessionCounter s) :=
  List.perm_insertionSort _ _

theorem sum_filter_extract (s : Session) (k : String) :
    (((extract_keywords s).filter fun p => p.1 = k).map Prod.snd).sum
      = countOf (sessionCounter s) k := by
  rw [← countOf_eq_sum_filter (sessionCounter s) k (nodupKeys_sessionCounter s)]
  exact (((extract_keywords_perm s).filter _).map Prod.snd).sum_eq

theorem countOf_mergedCounter (corpus : List Session) (k : String) :
    countOf (mergedCounter corpus) k
      = (corpus.map fun s => countOf (sessionCounter s) k).sum := by
  have aux : ∀ (l : List Session) (c : List (String × Nat)),
      countOf (l.foldl (fun c s => (extract_keywords s).foldl (fun c p => incr c p.1 p.2) c) c) k
        = countOf c k + (l.map fun s => countOf (sessionCounter s) k).sum := by
    intro l
    induction l with
    | nil => simp
    | cons s ss ih =>
      intro c
      simp only [List.foldl_cons, ih, countOf_foldl_incr, sum_filter_extract, List.map_cons,
        List.sum_cons]
      omega
  simpa [mergedCounter, countOf] using aux corpus []

theorem countOf_foldl_incr_one (names : List String) (c : List (String × Nat)) (k : String) :
    countOf (names.foldl (fun c cat => incr c cat 1) c) k = countOf c k + names.count k := by
  induction names generalizing c with
  | nil => simp
  | cons t ts ih =>
    simp only [List.foldl_cons, ih, countOf_incr, List.count_cons]
    by_cases h : t = k
    · simp [h]
      omega
    · simp [h]

theorem countOf_profileFold (profiles : List SessionProfile) (c : List (String × Nat))
    (k : String) :
    countOf (profiles.foldl (fun counts p =>
        p.dominant_categories.foldl (fun counts category => incr counts category 1) counts) c) k
      = countOf c k + (profiles.map fun p => p.dominant_categories.count k).sum := by
  induction profiles generalizing c with
  | nil => simp
  | cons p ps ih =>
    simp only [List.foldl_cons, ih, countOf_foldl_incr_one, List.map_cons, List.sum_cons]
    omega

theorem sum_count_eq_length_filter (profiles : List SessionProfile) (k : String)
    (h : ∀ p ∈ profiles, p.dominant_categories.Nodup) :
    (profiles.map fun p => p.dominant_categories.count k).sum
      = (profiles.filter fun p => k ∈ p.dominant_categories).length := by
  induction profiles with
  | nil => simp
  | cons p ps ih =>
    simp only [List.map_cons, List.sum_cons, List.filter_cons]
    by_cases hm : k ∈ p.dominant_categories
    · rw [List.count_eq_one_of_mem (h p (List.mem_cons_self p ps)) hm]
      simp [hm, ih fun q hq => h q (List.mem_cons_of_mem p hq)]
      omega
    · rw [List.count_eq_zero_of_not_mem hm]
      simp [hm, ih fun q hq => h q (List.mem_cons_of_mem p hq)]

/- ------------------------------------------------------------------ -/
/- Category-detection lemmas                                           -/
/- ------------------------------------------------------------------ -/

theorem alistGet_of_mem_nodup {β : Type} (l : List (String × β)) (k : String) (v : β)
    (h : (l.map Prod.fst).Nodup) (hm : (k, v) ∈ l) : alistGet l k = some v := by
  induction l with
  | nil => cases hm
  | cons hd tl ih =>
    obtain ⟨k1, v1⟩ := hd
    simp only [List.map_cons, List.nodup_cons] at h
    rcases List.mem_cons.mp hm with he | hm'
    · obtain ⟨hk, hv⟩ := Prod.mk.injEq .. ▸ he
      injection he with h1 h2
      subst h1
      subst h2
      simp [alistGet]
    · have hk1 : ¬k1 = k := by
        intro he
        subst he
        exact h.1 (List.mem_map_of_mem Prod.fst hm')
      simp [alistGet, hk1, ih h.2 hm']

theorem nodupKeys_CATEGORY_KEYWORDS : (CATEGORY_KEYWORDS.map Prod.fst).Nodup := by
  decide

theorem vocab_of_mem {cv : String × List String} (hm : cv ∈ CATEGORY_KEYWORDS) :
    alistGetD CATEGORY_KEYWORDS cv.1 [] = cv.2 := by
  rw [alistGetD, alistGet_of_mem_nodup CATEGORY_KEYWORDS cv.1 cv.2 nodupKeys_CATEGORY_KEYWORDS hm]

theorem detectHits_keys_sublist (kws : List (String × Nat)) :
    ((detectHits kws).map Prod.fst).Sublist (CATEGORY_KEYWORDS.map Prod.fst) := by
  unfold detectHits
  generalize CATEGORY_KEYWORDS = l
  induction l with
  | nil => simp
  | cons cv rest ih =>
    simp only [List.filterMap_cons]
    by_cases h : (kws.filter fun p => cv.2.contains p.1).isEmpty
    · simp only [h, if_pos]
      exact ih.cons cv.1
    · simp only [h, if_neg, List.map_cons]
      exact ih.cons₂ cv.1

theorem nodupKeys_detectHits (kws : List (String × Nat)) :
    ((detectHits kws).map Prod.fst).Nodup :=
  nodupKeys_CATEGORY_KEYWORDS.sublist (detectHits_keys_sublist kws)

theorem detectHits_weight (kws : List (String × Nat)) {c : String} {w : Nat}
    (hm : (c, w) ∈ detectHits kws) : w = catWeight c kws := by
  unfold detectHits at hm
  rcases List.mem_filterMap.mp hm with ⟨cv, hcv, hf⟩
  by_cases h : (kws.filter fun p => cv.2.contains p.1).isEmpty
  · rw [if_pos h] at hf
    cases hf
  · rw [if_neg h, Option.some.injEq, Prod.mk.injEq] at hf
    obtain ⟨h1, h2⟩ := hf
    subst h1
    subst h2
    rw [catWeight, vocab_of_mem hcv]

theorem detectHits_pos (kws : List (String × Nat)) (hpos : ∀ p ∈ kws, 0 < p.2)
    {c : String} {w : Nat} (hm : (c, w) ∈ detectHits kws) : 0 < w := by
  unfold detectHits at hm
  rcases List.mem_filterMap.mp hm with ⟨cv, hcv, hf⟩
  by_cases h : (kws.filter fun p => cv.2.contains p.1).isEmpty
  · rw [if_pos h] at hf
    cases hf
  · rw [if_neg h, Option.some.injEq, Prod.mk.injEq] at hf
    obtain ⟨h1, h2⟩ := hf
    subst h2
    have hnil : (kws.filter fun p => cv.2.contains p.1) ≠ [] := by
      intro hn
      rw [hn] at h
      exact h rfl
    rcases List.exists_mem_of_ne_nil _ hnil with ⟨p, hp⟩
    have hpk : 0 < p.2 := hpos p (List.mem_of_mem_filter hp)
    calc 0 < p.2 := hpk
      _ ≤ ((kws.filter fun q => cv.2.contains q.1).map Prod.snd).sum :=
        List.single_le_sum (fun _ _ => Nat.zero_le _) _ (List.mem_map_of_mem Prod.snd hp)

theorem mem_detectHits_of_pos (kws : List (String × Nat)) {cv : String × List String}
    (hcv : cv ∈ CATEGORY_KEYWORDS) (hw : 0 < catWeight cv.1 kws) :
    (cv.1, catWeight cv.1 kws) ∈ detectHits kws := by
  have hv := vocab_of_mem hcv
  have hne : ¬(kws.filter fun p => cv.2.contains p.1).isEmpty := by
    intro h
    rw [catWeight, hv, List.isEmpty_iff.mp h] at hw
    simp at hw
  unfold detectHits
  refine List.mem_filterMap.mpr ⟨cv, hcv, ?_⟩
  rw [if_neg hne]
  rw [catWeight, hv]

theorem detectHits_eq_nil_iff (kws : List (String × Nat)) (hpos : ∀ p ∈ kws, 0 < p.2) :
    detectHits kws = [] ↔ ∀ cv ∈ CATEGORY_KEYWORDS, catWeight cv.1 kws = 0 := by
  constructor
  · intro h cv hcv
    by_contra hw
    have := mem_detectHits_of_pos kws hcv (Nat.pos_of_ne_zero hw)
    rw [h] at this
    cases this
  · intro h
    unfold detectHits
    refine List.filterMap_eq_nil_iff.mpr fun cv hcv => ?_
    have hv := vocab_of_mem hcv
    by_cases he : (kws.filter fun p => cv.2.contains p.1).isEmpty
    · rw [if_pos he]
    · exfalso
      have hnil : (kws.filter fun p => cv.2.contains p.1) ≠ [] := by
        intro hn
        rw [hn] at he
        exact he rfl
      rcases List.exists_mem_of_ne_nil _ hnil with ⟨p, hp⟩
      have hpk : 0 < p.2 := hpos p (List.mem_of_mem_filter hp)
      have hsum : 0 < catWeight cv.1 kws := by
        rw [catWeight, hv]
        calc 0 < p.2 := hpk
          _ ≤ _ := List.single_le_sum (fun _ _ => Nat.zero_le _) _ (List.mem_map_of_mem Prod.snd hp)
      have hz := h cv hcv
      omega

/- ------------------------------------------------------------------ -/
/- Stable-sort lemmas                                                  -/
/- ------------------------------------------------------------------ -/

theorem sortDescBySnd_perm {α : Type} (l : List (α × Nat)) : (sortDescBySnd l).Perm l :=
  List.perm_insertionSort _ _

theorem sortDescBySnd_sorted {α : Type} (l : List (α × Nat)) :
    List.Pairwise descBySnd (sortDescBySnd l) :=
  List.sorted_insertionSort descBySnd l

theorem sortDescBySnd_take_drop {α : Type} (l : List (α × Nat)) (n : Nat) :
    ∀ p ∈ (sortDescBySnd l).take n, ∀ q ∈ (sortDescBySnd l).drop n, q.2 ≤ p.2 := by
  have hs := sortDescBySnd_sorted l
  rw [← List.take_append_drop n (sortDescBySnd l)] at hs
  exact fun p hp q hq => (List.pairwise_append.mp hs).2.2 p hp q hq

theorem detect_categories_nodup (kws : List (String × Nat)) :
    (detect_categories kws).Nodup := by
  simp only [detect_categories]
  by_cases h : (detectHits kws).isEmpty
  · simp [h]
  · rw [if_neg h]
    have hkeys : ((sortDescBySnd (detectHits kws)).map Prod.fst).Nodup :=
      (((sortDescBySnd_perm (detectHits kws)).map Prod.fst).nodup_iff).mpr
        (nodupKeys_detectHits kws)
    rw [List.map_take]
    exact hkeys.sublist (List.take_sublist 3 _)

theorem deriveProfiles_dominant_nodup (corpus : List Session) :
    ∀ p ∈ deriveProfiles corpus, p.dominant_categories.Nodup := by
  intro p hp
  rcases List.mem_filterMap.mp hp with ⟨s, _, hf⟩
  by_cases h : s.turns.isEmpty
  · rw [if_pos h] at hf
    cases hf
  · rw [if_neg h, Option.some.injEq] at hf
    subst hf
    exact detect_categories_nodup _

/- ------------------------------------------------------------------ -/
/- C2: archetype generation and its cache                              -/
/- ------------------------------------------------------------------ -/

theorem deriveProfiles_eq_filter_map (corpus : List Session) :
    deriveProfiles corpus = (corpus.filter fun s => ¬s.turns.isEmpty).map mkProfile := by
  induction corpus with
  | nil => rfl
  | cons s ss ih =>
    unfold deriveProfiles at ih ⊢
    rw [List.filterMap_cons, List.filter_cons]
    simp only [List.isEmpty_iff] at ih ⊢
    by_cases h : s.turns = []
    · simp [h, ih]
    · simp [h, ih]

/-- C2: on a fresh engine, `generate_archetypes k` returns the first `k`
entries of the derived profile list (hence at most `k` profiles); the
derivation makes one profile per session with at least one turn, skipping
zero-turn sessions; the full list is cached, and any later call with any
`k2` returns the first `k2` entries of that same cached list, leaving the
engine state unchanged — so outputs are stable across repeated calls. -/
theorem c2_generate_archetypes_cached (corpus : List Session) (src : RandSource)
    (k k2 : Nat) :
    (generate_archetypes (mkEngine corpus src) k).1 = (deriveProfiles corpus).take k ∧
    (generate_archetypes (mkEngine corpus src) k).1.length ≤ k ∧
    deriveProfiles corpus = (corpus.filter fun s => ¬s.turns.isEmpty).map mkProfile ∧
    (generate_archetypes (mkEngine corpus src) k).2.profiles = deriveProfiles corpus ∧
    (generate_archetypes ((generate_archetypes (mkEngine corpus src) k).2) k2).1
      = (deriveProfiles corpus).take k2 ∧
    (generate_archetypes ((generate_archetypes (mkEngine corpus src) k).2) k2).2
      = (generate_archetypes (mkEngine corpus src) k).2 := by
  refine ⟨?_, ?_, deriveProfiles_eq_filter_map corpus, ?_, ?_, ?_⟩
  · simp [generate_archetypes, mkEngine]
  · simp [generate_archetypes, mkEngine]
  · simp [generate_archetypes, mkEngine]
  · by_cases hd : (deriveProfiles corpus).isEmpty
    · have hd2 : deriveProfiles corpus = [] := List.isEmpty_iff.mp hd
      simp [generate_archetypes, mkEngine, hd2]
    · simp [generate_archetypes, mkEngine, hd]
  · by_cases hd : (deriveProfiles corpus).isEmpty
    · have hd2 : deriveProfiles corpus = [] := List.isEmpty_iff.mp hd
      simp [generate_archetypes, mkEngine, hd2]
    · simp [generate_archetypes, mkEngine, hd]

/- ------------------------------------------------------------------ -/
/- C7: the worked example                                              -/
/- ------------------------------------------------------------------ -/

/-- C7: on the one-session corpus of the worked example (one user turn
reading "I worry about pricing and income this year" plus an assistant
turn), `generate_archetypes 1` returns exactly one profile whose dominant
categories are `["money"]` and whose top keywords include both "pricing"
and "income", via the specified tokenization. -/
theorem c7_worked_example :
    (generate_archetypes (mkEngine [sampleSession] zeroSrc) 1).1 = [mkProfile sampleSession] ∧
    (mkProfile sampleSession).dominant_categories = ["money"] ∧
    "pricing" ∈ (mkProfile sampleSession).top_keywords ∧
    "income" ∈ (mkProfile sampleSession).top_keywords := by
  refine ⟨?_, by decide, by decide, by decide⟩
  decide

/- ------------------------------------------------------------------ -/
/- C3: deterministic sampling                                          -/
/- ------------------------------------------------------------------ -/

theorem simGo_spec (corpus : List Session) (src : RandSource) (count max_turns idx : Nat)
    (h : corpus ≠ []) :
    ∃ res idx2, simGo corpus src count max_turns idx = .ok (res, idx2) ∧
      res.length ≤ count ∧
      idx2 = idx + count + res.length ∧
      (∀ seg ∈ res, ∃ s, s ∈ corpus ∧ s.turns ≠ [] ∧ ∃ start,
        start ≤ s.turns.length - max_turns ∧ seg = (s.turns.drop start).take max_turns) ∧
      ((∀ s ∈ corpus, s.turns ≠ []) → res.length = count) := by
  have hne : corpus.isEmpty = false := by
    cases corpus with
    | nil => exact absurd rfl h
    | cons a l => rfl
  have hpos : 0 < corpus.length := List.length_pos.mpr h
  induction count generalizing idx with
  | zero =>
    exact ⟨[], idx, rfl, Nat.le_refl 0, by simp, by simp, fun _ => rfl⟩
  | succ n ih =>
    have hi : src.val idx corpus.length < corpus.length := src.lt idx corpus.length hpos
    have hgetD : corpus.getD (src.val idx corpus.length) ⟨"", "", []⟩
        = corpus[src.val idx corpus.length] := by
      rw [List.getD_eq_getElem?_getD, List.getElem?_eq_getElem hi, Option.getD_some]
    have hmem : corpus.getD (src.val idx corpus.length) ⟨"", "", []⟩ ∈ corpus := by
      rw [hgetD]
      exact List.getElem_mem hi
    by_cases hturns : (corpus.getD (src.val idx corpus.length) ⟨"", "", []⟩).turns.isEmpty
    · rcases ih (idx + 1) with ⟨res, idx2, heq, hlen, hidx, hsegs, hfull⟩
      refine ⟨res, idx2, ?_, Nat.le_succ_of_le hlen, by omega, hsegs, ?_⟩
      · simp only [simGo, hne, Bool.false_eq_true, if_false, hturns, if_true]
        exact heq
      · intro hall
        exact absurd (List.isEmpty_iff.mp hturns) (hall _ hmem)
    · rcases ih (idx + 2) with ⟨res, idx2, heq, hlen, hidx, hsegs, hfull⟩
      set session := corpus.getD (src.val idx corpus.length) ⟨"", "", []⟩ with hsess
      have hstart : src.val (idx + 1) (session.turns.length - max_turns + 1)
          ≤ session.turns.length - max_turns := by
        have := src.lt (idx + 1) (session.turns.length - max_turns + 1) (Nat.succ_pos _)
        omega
      refine ⟨(session.turns.drop
          (src.val (idx + 1) (session.turns.length - max_turns + 1))).take max_turns :: res,
        idx2, ?_, by simpa using hlen, by simp [hidx]; omega, ?_, ?_⟩
      · simp only [simGo, hne, Bool.false_eq_true, if_false, ← hsess, hturns, heq]
      · intro seg hseg
        rcases List.mem_cons.mp hseg with hh | ht
        · exact ⟨session, hmem, fun hn => hturns (by simp [hn]),
            src.val (idx + 1) (session.turns.length - max_turns + 1), hstart, hh⟩
        · exact hsegs seg ht
      · intro hall
        simp [hfull hall]

/-- C3: `simulate_sessions(count, max_turns)` makes exactly `count` session
draws (the final draw-counter is the starting one plus `count` plus one
extra `randint` draw per emitted segment); a drawn session with no turns
consumes the draw but emits nothing, so at most `count` segments result
(exactly `count` when every session has a turn); every emitted segment is a
contiguous slice of at most `max_turns` turns of a corpus session starting
at an offset bounded by `max(0, len(turns) - max_turns)`; and two engine
instances agreeing on corpus, draw source (seed) and draw position emit
identical segment sequences. -/
theorem c3_simulate_sessions (corpus : List Session) (src : RandSource)
    (count max_turns : Nat) (h : corpus ≠ []) :
    (∃ res idx2,
      simGo corpus src count max_turns 0 = .ok (res, idx2) ∧
      simulate_sessions (mkEngine corpus src) count max_turns
        = .ok (res, { corpus := corpus, src := src, rngIdx := idx2, profiles := [] }) ∧
      res.length ≤ count ∧
      idx2 = count + res.length ∧
      (∀ seg ∈ res, ∃ s, s ∈ corpus ∧ s.turns ≠ [] ∧ ∃ start,
        start ≤ s.turns.length - max_turns ∧ seg = (s.turns.drop start).take max_turns) ∧
      ((∀ s ∈ corpus, s.turns ≠ []) → res.length = count)) ∧
    (∀ e1 e2 : Engine, e1.corpus = e2.corpus → e1.src = e2.src → e1.rngIdx = e2.rngIdx →
      (simulate_sessions e1 count max_turns).map Prod.fst
        = (simulate_sessions e2 count max_turns).map Prod.fst) := by
  constructor
  · rcases simGo_spec corpus src count max_turns 0 h with
      ⟨res, idx2, heq, hlen, hidx, hsegs, hfull⟩
    refine ⟨res, idx2, heq, ?_, hlen, by omega, hsegs, hfull⟩
    simp [simulate_sessions, mkEngine, heq]
  · intro e1 e2 hc hs hi
    unfold simulate_sessions
    rw [hc, hs, hi]
    rcases hgo : simGo e2.corpus e2.src count max_turns e2.rngIdx with err | ⟨res, idx2⟩ <;>
      simp [hgo, Except.map]

/- ------------------------------------------------------------------ -/
/- C4: aggregate analytics                                             -/
/- ------------------------------------------------------------------ -/

theorem deriveProfiles_take_length (corpus : List Session) :
    (deriveProfiles corpus).take corpus.length = deriveProfiles corpus :=
  List.take_of_length_le (List.length_filterMap_le _ _)

theorem analyze_sessions_fields (corpus : List Session) (src : RandSource) :
    (analyze_sessions (mkEngine corpus src)).1 =
      { total_sessions := corpus.length,
        total_turns := total_turns corpus,
        avg_turns_per_session := pyRound2 (if corpus.length = 0 then 0
          else (total_turns corpus : ℚ) / (corpus.length : ℚ)),
        token_estimate := total_token_estimate corpus,
        top_keywords := (most_common (mergedCounter corpus)).take 12,
        category_spread := (deriveProfiles corpus).foldl (fun counts p =>
          p.dominant_categories.foldl (fun counts category => incr counts category 1) counts)
          [] } := by
  simp [analyze_sessions, aggregate_categories, generate_archetypes, mkEngine,
    deriveProfiles_take_length]

/-- C4: `analyze_sessions()` reports the corpus session count, the corpus
total turn count, the average turns per session rounded to 2 decimal places
(exactly 0 for an empty corpus), the corpus token estimate, and at most 12
top keywords in descending count order dominating every entry left out of
the cut, where a keyword count sums the qualifying-token
occurrences over all sessions of the corpus (not capped per session);
the category spread counts, for each category, the cached profiles having
that category among their dominant categories — one increment per profile
(dominant category lists hold no duplicates). -/
theorem c4_analyze_sessions (corpus : List Session) (src : RandSource) :
    (analyze_sessions (mkEngine corpus src)).1.total_sessions = corpus.length ∧
    (analyze_sessions (mkEngine corpus src)).1.total_turns
      = (corpus.map fun s => s.turns.length).sum ∧
    (analyze_sessions (mkEngine corpus src)).1.avg_turns_per_session
      = pyRound2 (if corpus.length = 0 then 0
          else (total_turns corpus : ℚ) / (corpus.length : ℚ)) ∧
    (analyze_sessions (mkEngine ([] : List Session) src)).1.avg_turns_per_session = 0 ∧
    (analyze_sessions (mkEngine corpus src)).1.token_estimate
      = (corpus.map fun s => ((s.turns.map fun t => t.text.length).sum) / 4).sum ∧
    (analyze_sessions (mkEngine corpus src)).1.top_keywords
      = (most_common (mergedCounter corpus)).take 12 ∧
    (analyze_sessions (mkEngine corpus src)).1.top_keywords.length ≤ 12 ∧
    List.Pairwise descBySnd (analyze_sessions (mkEngine corpus src)).1.top_keywords ∧
    (∀ p ∈ (analyze_sessions (mkEngine corpus src)).1.top_keywords,
      ∀ q ∈ (most_common (mergedCounter corpus)).drop 12, q.2 ≤ p.2) ∧
    (∀ kw, countOf (mergedCounter corpus) kw
      = (corpus.map fun s => countOf (sessionCounter s) kw).sum) ∧
    (∀ s kw, countOf (sessionCounter s) kw
      = if 3 < kw.length then (sessionTokens s).count kw else 0) ∧
    (∀ c, countOf (analyze_sessions (mkEngine corpus src)).1.category_spread c
      = ((deriveProfiles corpus).filter fun p => c ∈ p.dominant_categories).length) := by
  rw [analyze_sessions_fields]
  refine ⟨rfl, rfl, rfl, ?_, rfl, rfl, ?_, ?_, ?_, countOf_mergedCounter corpus,
    fun s kw => countOf_sessionCounter s kw, ?_⟩
  · rw [analyze_sessions_fields]
    norm_num [pyRound2, roundHalfEven]
  · exact List.length_take_le 12 _
  · exact (sortDescBySnd_sorted (mergedCounter corpus)).sublist (List.take_sublist 12 _)
  · exact sortDescBySnd_take_drop (mergedCounter corpus) 12
  · intro c
    rw [countOf_profileFold, sum_count_eq_length_filter _ _ (deriveProfiles_dominant_nodup corpus)]
    simp [countOf]


/- ------------------------------------------------------------------ -/
/- C6: category detection                                              -/
/- ------------------------------------------------------------------ -/

theorem general_not_category_key : "general" ∉ CATEGORY_KEYWORDS.map Prod.fst := by
  decide

theorem mem_keys_of_mem_take_sorted (kws : List (String × Nat)) {a : String}
    (ha : a ∈ ((sortDescBySnd (detectHits kws)).take 3).map Prod.fst) :
    a ∈ CATEGORY_KEYWORDS.map Prod.fst := by
  rcases List.mem_map.mp ha with ⟨p, hp, hpa⟩
  have h1 : p ∈ detectHits kws :=
    (sortDescBySnd_perm (detectHits kws)).mem_iff.mp (List.mem_of_mem_take hp)
  exact hpa ▸ (detectHits_keys_sublist kws).mem (List.mem_map_of_mem Prod.fst h1)

/-- C6: for keyword lists with positive frequencies (as produced by
extraction), `_detect_categories` returns between 1 and 3 categories;
it returns exactly `["general"]` precisely when no taxonomy category has a
nonzero summed trigger weight; in the non-general case the returned names
are in descending order of their summed trigger weights, each has positive
weight, and no taxonomy category left out outweighs a returned one. -/
theorem c6_detect_categories (kws : List (String × Nat)) (hpos : ∀ p ∈ kws, 0 < p.2) :
    1 ≤ (detect_categories kws).length ∧
    (detect_categories kws).length ≤ 3 ∧
    ((∀ cv ∈ CATEGORY_KEYWORDS, catWeight cv.1 kws = 0) ↔
      detect_categories kws = ["general"]) ∧
    List.Pairwise (fun a b => catWeight b kws ≤ catWeight a kws) (detect_categories kws) ∧
    (detect_categories kws ≠ ["general"] →
      ∀ c ∈ detect_categories kws, 0 < catWeight c kws) ∧
    (∀ cv ∈ CATEGORY_KEYWORDS, cv.1 ∉ detect_categories kws →
      ∀ c ∈ detect_categories kws, catWeight cv.1 kws ≤ catWeight c kws) := by
  by_cases hh : (detectHits kws).isEmpty
  · have hnil : detectHits kws = [] := List.isEmpty_iff.mp hh
    have hall : ∀ cv ∈ CATEGORY_KEYWORDS, catWeight cv.1 kws = 0 :=
      (detectHits_eq_nil_iff kws hpos).mp hnil
    have hd : detect_categories kws = ["general"] := by
      simp [detect_categories, hnil]
    refine ⟨by simp [hd], by simp [hd], ⟨fun _ => hd, fun _ => hall⟩, by simp [hd],
      fun hne => absurd hd hne, ?_⟩
    intro cv hcv _ c _
    rw [hall cv hcv]
    exact Nat.zero_le _
  · have hd : detect_categories kws
        = ((sortDescBySnd (detectHits kws)).take 3).map Prod.fst := by
      simp [detect_categories, hh]
    have hsne : detectHits kws ≠ [] := by
      intro hn
      rw [hn] at hh
      exact hh rfl
    have hmem_take : ∀ p ∈ (sortDescBySnd (detectHits kws)).take 3, p ∈ detectHits kws :=
      fun p hp => (sortDescBySnd_perm (detectHits kws)).mem_iff.mp (List.mem_of_mem_take hp)
    have hw_take : ∀ p ∈ (sortDescBySnd (detectHits kws)).take 3, p.2 = catWeight p.1 kws := by
      intro p hp
      rcases p with ⟨c, w⟩
      exact detectHits_weight kws (hmem_take _ hp)
    have hgen : detect_categories kws ≠ ["general"] := by
      rw [hd]
      intro he
      have h1 : "general" ∈ ((sortDescBySnd (detectHits kws)).take 3).map Prod.fst := by
        rw [he]
        exact List.mem_singleton_self "general"
      exact general_not_category_key (mem_keys_of_mem_take_sorted kws h1)
    have hlen : (detect_categories kws).length
        = min 3 (sortDescBySnd (detectHits kws)).length := by
      rw [hd, List.length_map, List.length_take]
    have hslen : 0 < (sortDescBySnd (detectHits kws)).length := by
      rw [(sortDescBySnd_perm (detectHits kws)).length_eq]
      exact List.length_pos.mpr hsne
    refine ⟨by omega, by omega, ?_, ?_, fun _ c hc => ?_, ?_⟩
    · constructor
      · intro hall
        exact absurd ((detectHits_eq_nil_iff kws hpos).mpr hall) hsne
      · intro he
        exact absurd he hgen
    · rw [hd, List.pairwise_map]
      have hp3 : List.Pairwise descBySnd ((sortDescBySnd (detectHits kws)).take 3) :=
        (sortDescBySnd_sorted (detectHits kws)).sublist (List.take_sublist 3 _)
      refine hp3.imp_of_mem ?_
      intro a b ha hb hab
      rw [← hw_take a ha, ← hw_take b hb]
      exact hab
    · rw [hd] at hc
      rcases List.mem_map.mp hc with ⟨p, hp, hpc⟩
      have := detectHits_pos kws hpos (c := p.1) (w := p.2) (by simpa using hmem_take p hp)
      rw [← hpc, ← hw_take p hp]
      exact this
    · intro cv hcv hnot c hc
      by_cases hw0 : catWeight cv.1 kws = 0
      · rw [hw0]
        exact Nat.zero_le _
      · have hpos_cv : 0 < catWeight cv.1 kws := Nat.pos_of_ne_zero hw0
        have hin : (cv.1, catWeight cv.1 kws) ∈ detectHits kws :=
          mem_detectHits_of_pos kws hcv hpos_cv
        have hins : (cv.1, catWeight cv.1 kws) ∈ sortDescBySnd (detectHits kws) :=
          (sortDescBySnd_perm (detectHits kws)).mem_iff.mpr hin
        have hnt : (cv.1, catWeight cv.1 kws) ∉ (sortDescBySnd (detectHits kws)).take 3 := by
          intro ht
          rw [hd] at hnot
          exact hnot (List.mem_map_of_mem Prod.fst ht)
        have hdrop : (cv.1, catWeight cv.1 kws) ∈ (sortDescBySnd (detectHits kws)).drop 3 := by
          rcases List.mem_append.mp
            (by rw [List.take_append_drop 3 (sortDescBySnd (detectHits kws))]; exact hins) with
            hta | hdr
          · exact absurd hta hnt
          · exact hdr
        rw [hd] at hc
        rcases List.mem_map.mp hc with ⟨q, hq, hqc⟩
        have hle := sortDescBySnd_take_drop (detectHits kws) 3 q hq _ hdrop
        rw [← hqc, ← hw_take q hq]
        exact hle

/- ------------------------------------------------------------------ -/
/- C9: method suggestions                                              -/
/- ------------------------------------------------------------------ -/

/-- C9: `generate_methods(max_methods)` sorts the category spread by
descending mention count, keeps the top `max_methods` pairs, and renders
each pair as a record with display name "<Category Title> Thread", the raw
category key as focus, the "<count> mentions across ground-truth sessions"
evidence string, and the static per-category suggested moves; a category
missing from the static table falls back to the "general" list, which does
exist in the table, so the lookup never fails. -/
theorem c9_generate_methods (corpus : List Session) (src : RandSource) (m : Nat) :
    (generate_methods (mkEngine corpus src) m).1
      = ((sortDescBySnd ((analyze_sessions (mkEngine corpus src)).1.category_spread)).take m).map
          mkMethodRec ∧
    (generate_methods (mkEngine corpus src) m).1.length
      = min m ((analyze_sessions (mkEngine corpus src)).1.category_spread).length ∧
    List.Pairwise descBySnd
      ((sortDescBySnd ((analyze_sessions (mkEngine corpus src)).1.category_spread)).take m) ∧
    (∀ r ∈ (generate_methods (mkEngine corpus src) m).1,
      ∃ p, p ∈ (analyze_sessions (mkEngine corpus src)).1.category_spread ∧
        r.method = pyTitle p.1 ++ " Thread" ∧
        r.focus = p.1 ∧
        r.evidence = Nat.repr p.2 ++ " mentions across ground-truth sessions" ∧
        r.suggested_moves = suggest_moves_for_category p.1) ∧
    (∀ c, alistGet SUGGESTIONS c = none → suggest_moves_for_category c = generalMoves) ∧
    suggest_moves_for_category "general" = generalMoves := by
  refine ⟨by simp [generate_methods], ?_, ?_, ?_, ?_, by decide⟩
  · simp [generate_methods, List.length_take,
      (sortDescBySnd_perm ((analyze_sessions (mkEngine corpus src)).1.category_spread)).length_eq]
  · exact (sortDescBySnd_sorted _).sublist (List.take_sublist m _)
  · intro r hr
    simp only [generate_methods] at hr
    rcases List.mem_map.mp hr with ⟨p, hp, hpr⟩
    refine ⟨p, ?_, ?_, ?_, ?_, ?_⟩
    · exact (sortDescBySnd_perm _).mem_iff.mp (List.mem_of_mem_take hp)
    all_goals rw [← hpr] ; rfl
  · intro c hc
    rw [suggest_moves_for_category, hc]
    rfl

/- ------------------------------------------------------------------ -/
/- C1: empty-corpus behaviour                                          -/
/- ------------------------------------------------------------------ -/

/-- C1 counterexample: on an empty corpus (which constructs successfully),
`simulate_sessions` with the default arguments raises: `random.choice` on
the empty session list fails, so not every engine operation degrades
gracefully. -/
theorem c1_counterexample :
    simulate_sessions (mkEngine ([] : List Session) zeroSrc) 3 6
      = .error "Cannot choose from an empty sequence" := rfl

/-- C1 (amended): on an empty corpus, `generate_archetypes`,
`analyze_sessions`, `generate_methods`, `total_turns`,
`total_token_estimate` and `head` all return zero/empty results without
failing, and `simulate_sessions` never fails on a corpus with at least one
session; but `simulate_sessions` with a positive count fails on an empty
corpus (the draw from an empty sequence raises). -/
theorem c1_empty_corpus_graceful (src : RandSource) (k n m count mt : Nat)
    (corpus : List Session) (h : corpus ≠ []) :
    (generate_archetypes (mkEngine [] src) k).1 = [] ∧
    (analyze_sessions (mkEngine [] src)).1
      = { total_sessions := 0, total_turns := 0, avg_turns_per_session := 0,
          token_estimate := 0, top_keywords := [], category_spread := [] } ∧
    (generate_methods (mkEngine [] src) n).1 = [] ∧
    total_turns ([] : List Session) = 0 ∧
    total_token_estimate ([] : List Session) = 0 ∧
    head ([] : List Session) m = [] ∧
    (∃ out, simulate_sessions (mkEngine corpus src) count mt = .ok out) ∧
    (0 < count → ∀ idx, simGo ([] : List Session) src count mt idx
      = .error "Cannot choose from an empty sequence") := by
  have hspread : (analyze_sessions (mkEngine ([] : List Session) src)).1.category_spread = [] := by
    rw [analyze_sessions_fields]
    rfl
  refine ⟨?_, ?_, ?_, rfl, rfl, by simp [head], ?_, ?_⟩
  · simp [generate_archetypes, mkEngine, deriveProfiles]
  · rw [analyze_sessions_fields]
    norm_num [Analysis.mk.injEq, pyRound2, roundHalfEven, total_turns, total_token_estimate,
      mergedCounter, most_common, sortDescBySnd, deriveProfiles, List.insertionSort]
  · simp [generate_methods, hspread, sortDescBySnd]
  · rcases simGo_spec corpus src count mt 0 h with ⟨res, idx2, heq, -, -, -, -⟩
    exact ⟨(res, { corpus := corpus, src := src, rngIdx := idx2, profiles := [] }),
      by simp [simulate_sessions, mkEngine, heq]⟩
  · intro hc idx
    cases count with
    | zero => omega
    | succ n2 => rfl

/- ------------------------------------------------------------------ -/
/- Loader lemmas                                                       -/
/- ------------------------------------------------------------------ -/

theorem loadTurns_ok_inv (telems : List Json) (turns : List JTurn)
    (h : loadTurns telems = .ok turns) :
    turns.length = telems.countP keptTurn ∧ ∀ t ∈ turns, truthy t.text := by
  induction telems generalizing turns with
  | nil =>
    cases h
    simp
  | cons t ts ih =>
    cases t with
    | obj fields =>
      by_cases htr : truthy (alistGetD fields "text" Json.null)
      · simp only [loadTurns, htr, if_true] at h
        rcases hsp : alistGet fields "speaker" with _ | sp
        · rw [hsp] at h
          cases h
        · rw [hsp] at h
          rcases htx : alistGet fields "text" with _ | tx
          · rw [htx] at h
            cases h
          · rw [htx] at h
            rcases hrest : loadTurns ts with e | rest
            · rw [hrest] at h
              cases h
            · rw [hrest] at h
              cases h
              rcases ih rest hrest with ⟨hlen, hall⟩
              constructor
              · simp [List.countP_cons, keptTurn, htr, hlen]
              · intro t ht
                rcases List.mem_cons.mp ht with hh | htl
                · subst hh
                  have hgd : alistGetD fields "text" Json.null = tx := by
                    rw [alistGetD, htx]
                  show truthy tx = true
                  rw [← hgd]
                  exact htr
                · exact hall t htl
      · simp only [loadTurns, htr, if_false] at h
        rcases ih turns h with ⟨hlen, hall⟩
        refine ⟨?_, hall⟩
        simp [List.countP_cons, keptTurn, htr, hlen]
    | null =>
      simp only [loadTurns] at h
      rcases ih turns h with ⟨hlen, hall⟩
      exact ⟨by simp [List.countP_cons, keptTurn, hlen], hall⟩
    | bool b =>
      simp only [loadTurns] at h
      rcases ih turns h with ⟨hlen, hall⟩
      exact ⟨by simp [List.countP_cons, keptTurn, hlen], hall⟩
    | num n =>
      simp only [loadTurns] at h
      rcases ih turns h with ⟨hlen, hall⟩
      exact ⟨by simp [List.countP_cons, keptTurn, hlen], hall⟩
    | str s =>
      simp only [loadTurns] at h
      rcases ih turns h with ⟨hlen, hall⟩
      exact ⟨by simp [List.countP_cons, keptTurn, hlen], hall⟩
    | arr elems =>
      simp only [loadTurns] at h
      rcases ih turns h with ⟨hlen, hall⟩
      exact ⟨by simp [List.countP_cons, keptTurn, hlen], hall⟩

theorem toTurns_inv (jts : List JTurn) (turns : List Turn) (h : toTurns jts = some turns) :
    turns.length = jts.length ∧ List.Forall₂ (fun jt t => jt.text = Json.str t.text) jts turns := by
  induction jts generalizing turns with
  | nil =>
    cases h
    exact ⟨rfl, List.Forall₂.nil⟩
  | cons jt jts ih =>
    simp only [toTurns] at h
    rcases h1 : toTurn jt with _ | turn
    · rw [h1] at h
      cases h
    · rw [h1] at h
      rcases h2 : toTurns jts with _ | rest
      · rw [h2] at h
        cases h
      · rw [h2] at h
        cases h
        rcases ih rest h2 with ⟨hlen, hfa⟩
        unfold toTurn at h1
        split at h1
        · rw [Option.some.injEq] at h1
          rename_i jsp jtx heq1 heq2
          refine ⟨by simp [hlen], List.Forall₂.cons ?_ hfa⟩
          rw [heq2, ← h1]
        · cases h1

theorem toSession_inv (js : JSession) (s : Session) (h : toSession js = some s) :
    toTurns js.turns = some s.turns := by
  unfold toSession at h
  split at h
  · rw [Option.some.injEq] at h
    rename_i sid src2 turns2 heq1 heq2 heq3
    rw [heq3, ← h]
  · cases h

theorem forall₂_mem_right {α β : Type} {R : α → β → Prop} {l₁ : List α} {l₂ : List β}
    (h : List.Forall₂ R l₁ l₂) : ∀ b ∈ l₂, ∃ a ∈ l₁, R a b := by
  induction h with
  | nil => intro b hb; cases hb
  | cons hr _ ih =>
    intro b hb
    rcases List.mem_cons.mp hb with hh | ht
    · exact ⟨_, List.mem_cons_self _ _, hh ▸ hr⟩
    · rcases ih b ht with ⟨a, ha, har⟩
      exact ⟨a, List.mem_cons_of_mem _ ha, har⟩

theorem loadItems_cons_inv (item : Json) (rest : List Json) (jss : List JSession)
    (h : loadItems (item :: rest) = .ok jss) :
    ∃ fields telems turns tail,
      item = Json.obj fields ∧
      iterElems (alistGetD fields "turns" (Json.arr [])) = .ok telems ∧
      loadTurns telems = .ok turns ∧
      loadItems rest = .ok tail ∧
      jss = { session_id := alistGetD fields "session_id" (Json.str "unknown"),
              source_file := alistGetD fields "source_file" (Json.str "unknown"),
              turns := turns } :: tail := by
  cases item with
  | obj fields =>
    simp only [loadItems] at h
    rcases hiter : iterElems (alistGetD fields "turns" (Json.arr [])) with e | telems
    · rw [hiter] at h
      cases h
    · rw [hiter] at h
      dsimp only at h
      rcases hlt : loadTurns telems with e | turns
      · rw [hlt] at h
        cases h
      · rw [hlt] at h
        dsimp only at h
        rcases hrest : loadItems rest with e | tail
        · rw [hrest] at h
          cases h
        · rw [hrest] at h
          dsimp only at h
          cases h
          exact ⟨fields, telems, turns, tail, rfl, hiter, hlt, rfl, rfl⟩
  | null => cases h
  | bool b => cases h
  | num n => cases h
  | str s => cases h
  | arr elems => cases h

theorem load_conv_forall₂ (items : List Json) (jss : List JSession) (sessions : List Session)
    (h1 : loadItems items = .ok jss) (h2 : toSessions jss = some sessions) :
    List.Forall₂ (fun item s => s.turns.length = keptTurnCount item ∧
      ∀ t ∈ s.turns, t.text ≠ "") items sessions := by
  induction items generalizing jss sessions with
  | nil =>
    cases h1
    cases h2
    exact List.Forall₂.nil
  | cons item rest ih =>
    rcases loadItems_cons_inv _ _ _ h1 with
      ⟨fields, telems, turns, tail, hitem, hiter, hlt, hrest, hjss⟩
    subst hjss
    subst hitem
    simp only [toSessions] at h2
    rcases hts : toSession ⟨alistGetD fields "session_id" (Json.str "unknown"),
      alistGetD fields "source_file" (Json.str "unknown"), turns⟩ with _ | s
    · rw [hts] at h2
      cases h2
    · rw [hts] at h2
      rcases hts2 : toSessions tail with _ | ss
      · rw [hts2] at h2
        cases h2
      · rw [hts2] at h2
        cases h2
        have htt := toSession_inv _ _ hts
        rcases toTurns_inv _ _ htt with ⟨hlen2, hfa⟩
        rcases loadTurns_ok_inv _ _ hlt with ⟨hlen1, htruthy⟩
        refine List.Forall₂.cons ⟨?_, ?_⟩ (ih tail ss hrest hts2)
        · show s.turns.length = keptTurnCount (Json.obj fields)
          unfold keptTurnCount
          simp only [hiter]
          rw [hlen2]
          exact hlen1
        · intro t ht
          rcases forall₂_mem_right hfa t ht with ⟨jt, hjt, hjtt⟩
          have htr := htruthy jt hjt
          rw [hjtt] at htr
          simpa [truthy] using htr

theorem forall₂_turn_sums {items : List Json} {sessions : List Session}
    (h : List.Forall₂ (fun item s => s.turns.length = keptTurnCount item ∧
      ∀ t ∈ s.turns, t.text ≠ "") items sessions) :
    (sessions.map fun s => s.turns.length).sum = (items.map keptTurnCount).sum := by
  induction h with
  | nil => rfl
  | cons hr _ ih => simp [ih, hr.1]

/- ------------------------------------------------------------------ -/
/- C8: totals over loaded corpora                                      -/
/- ------------------------------------------------------------------ -/

/-- C8: for a well-formed loaded corpus, `total_turns()` is the sum of
per-session turn counts, each of which counts exactly the payload turn
entries kept at load time (records with truthy text) — turns with missing
or empty text are never stored — and `total_token_estimate()` is the sum
over sessions of `sum(len(turn.text) for turn in turns) // 4` with
per-session integer division. -/
theorem c8_totals (items : List Json) (jss : List JSession) (sessions : List Session)
    (hload : loadItems items = .ok jss) (hconv : toSessions jss = some sessions) :
    total_turns sessions = (sessions.map fun s => s.turns.length).sum ∧
    total_token_estimate sessions
      = (sessions.map fun s => ((s.turns.map fun t => t.text.length).sum) / 4).sum ∧
    (∀ s ∈ sessions, ∀ t ∈ s.turns, t.text ≠ "") ∧
    List.Forall₂ (fun item s => s.turns.length = keptTurnCount item) items sessions ∧
    total_turns sessions = (items.map keptTurnCount).sum := by
  have hfa := load_conv_forall₂ items jss sessions hload hconv
  refine ⟨rfl, rfl, ?_, hfa.imp (fun _ _ h => h.1), forall₂_turn_sums hfa⟩
  intro s hs
  rcases forall₂_mem_right hfa s hs with ⟨item, _, hr⟩
  exact hr.2

/- ------------------------------------------------------------------ -/
/- C10: defaulted session fields                                       -/
/- ------------------------------------------------------------------ -/

/-- C10: a session record lacking `session_id`, `source_file` or `turns`
loads without failing: once the turns part of an entry loads, the entry
itself always loads, independently of those keys (a missing `turns`
defaults to an empty iteration), and the loaded session carries the string
"unknown" for a missing `session_id` or `source_file` and an empty turn
list for a missing `turns`. -/
theorem c10_missing_fields_default (fields : List (String × Json)) (rest : List Json) :
    (∀ telems turns, iterElems (alistGetD fields "turns" (Json.arr [])) = .ok telems →
      loadTurns telems = .ok turns →
      loadItems (Json.obj fields :: rest)
        = (loadItems rest).map (fun tail =>
            { session_id := alistGetD fields "session_id" (Json.str "unknown"),
              source_file := alistGetD fields "source_file" (Json.str "unknown"),
              turns := turns } :: tail)) ∧
    (alistGet fields "turns" = none →
      loadItems (Json.obj fields :: rest)
        = (loadItems rest).map (fun tail =>
            { session_id := alistGetD fields "session_id" (Json.str "unknown"),
              source_file := alistGetD fields "source_file" (Json.str "unknown"),
              turns := ([] : List JTurn) } :: tail)) ∧
    (∀ js tail, loadItems (Json.obj fields :: rest) = .ok (js :: tail) →
      (alistGet fields "session_id" = none → js.session_id = Json.str "unknown") ∧
      (alistGet fields "source_file" = none → js.source_file = Json.str "unknown") ∧
      (alistGet fields "turns" = none → js.turns = [])) := by
  have hmain : ∀ telems turns, iterElems (alistGetD fields "turns" (Json.arr [])) = .ok telems →
      loadTurns telems = .ok turns →
      loadItems (Json.obj fields :: rest)
        = (loadItems rest).map (fun tail =>
            { session_id := alistGetD fields "session_id" (Json.str "unknown"),
              source_file := alistGetD fields "source_file" (Json.str "unknown"),
              turns := turns } :: tail) := by
    intro telems turns h1 h2
    simp only [loadItems, h1, h2]
    rcases hrest : loadItems rest with e | tail <;> simp [hrest, Except.map]
  refine ⟨hmain, ?_, ?_⟩
  · intro hnone
    have hgd : alistGetD fields "turns" (Json.arr []) = Json.arr [] := by
      rw [alistGetD, hnone]
    exact hmain [] [] (by rw [hgd]; rfl) rfl
  · intro js tail h
    rcases loadItems_cons_inv _ _ _ h with
      ⟨fields2, telems, turns, tail2, hitem, hiter, hlt, hrest, hjss⟩
    have hf : fields = fields2 := by
      injection hitem with hf2
    subst hf
    injection hjss with hjs htail
    subst hjs
    refine ⟨?_, ?_, ?_⟩
    · intro hnone
      show alistGetD fields "session_id" (Json.str "unknown") = Json.str "unknown"
      rw [alistGetD, hnone]
    · intro hnone
      show alistGetD fields "source_file" (Json.str "unknown") = Json.str "unknown"
      rw [alistGetD, hnone]
    · intro hnone
      show turns = []
      have hgd : alistGetD fields "turns" (Json.arr []) = Json.arr [] := by
        rw [alistGetD, hnone]
      rw [hgd] at hiter
      cases hiter
      cases hlt
      rfl

/- ------------------------------------------------------------------ -/
/- C5: construction success and failure                                -/
/- ------------------------------------------------------------------ -/

theorem loadTurns_error_shape (ts : List Json) (e : LoadErr)
    (h : loadTurns ts = .error e) : ∃ k, e = LoadErr.keyErr k := by
  induction ts generalizing e with
  | nil => cases h
  | cons t ts ih =>
    cases t with
    | obj fields =>
      by_cases htr : truthy (alistGetD fields "text" Json.null)
      · simp only [loadTurns, htr, if_true] at h
        rcases hsp : alistGet fields "speaker" with _ | sp
        · rw [hsp] at h
          cases h
          exact ⟨"speaker", rfl⟩
        · rw [hsp] at h
          rcases htx : alistGet fields "text" with _ | tx
          · rw [htx] at h
            cases h
            exact ⟨"text", rfl⟩
          · rw [htx] at h
            rcases hrest : loadTurns ts with e2 | rest
            · rw [hrest] at h
              cases h
              exact ih _ hrest
            · rw [hrest] at h
              cases h
      · simp only [loadTurns, htr, if_false] at h
        exact ih e h
    | null => exact ih e h
    | bool b => exact ih e h
    | num n => exact ih e h
    | str s => exact ih e h
    | arr elems => exact ih e h

theorem iterElems_error_shape (j : Json) (e : LoadErr) (h : iterElems j = .error e) :
    ∃ m, e = LoadErr.typeErr m := by
  cases j with
  | null => cases h; exact ⟨_, rfl⟩
  | bool b => cases h; exact ⟨_, rfl⟩
  | num n => cases h; exact ⟨_, rfl⟩
  | str s => cases h
  | arr elems => cases h
  | obj fields => cases h

theorem loadItems_error_shape (items : List Json) (e : LoadErr)
    (h : loadItems items = .error e) :
    (∃ k, e = LoadErr.keyErr k) ∨ (∃ m, e = LoadErr.attrErr m) ∨
      (∃ m, e = LoadErr.typeErr m) := by
  induction items generalizing e with
  | nil => cases h
  | cons item rest ih =>
    cases item with
    | obj fields =>
      simp only [loadItems] at h
      rcases hiter : iterElems (alistGetD fields "turns" (Json.arr [])) with e2 | telems
      · rw [hiter] at h
        cases h
        exact Or.inr (Or.inr (iterElems_error_shape _ _ hiter))
      · rw [hiter] at h
        dsimp only at h
        rcases hlt : loadTurns telems with e2 | turns
        · rw [hlt] at h
          cases h
          exact Or.inl (loadTurns_error_shape _ _ hlt)
        · rw [hlt] at h
          dsimp only at h
          rcases hrest : loadItems rest with e2 | tail
          · rw [hrest] at h
            cases h
            exact ih _ hrest
          · rw [hrest] at h
            dsimp only at h
            cases h
    | null => cases h; exact Or.inr (Or.inl ⟨_, rfl⟩)
    | bool b => cases h; exact Or.inr (Or.inl ⟨_, rfl⟩)
    | num n => cases h; exact Or.inr (Or.inl ⟨_, rfl⟩)
    | str s => cases h; exact Or.inr (Or.inl ⟨_, rfl⟩)
    | arr elems => cases h; exact Or.inr (Or.inl ⟨_, rfl⟩)

theorem checkSessions_error_shape (raw : Json) (e : LoadErr)
    (h : checkSessions raw = .error e) :
    (∃ m, e = LoadErr.valueErr m) ∨ (∃ m, e = LoadErr.typeErr m) := by
  cases raw with
  | obj fields =>
    simp only [checkSessions] at h
    rcases hs : alistGet fields "sessions" with _ | v
    · rw [hs] at h
      cases h
      exact Or.inl ⟨_, rfl⟩
    · rw [hs] at h
      cases v <;> cases h <;> exact Or.inl ⟨_, rfl⟩
  | arr elems =>
    simp only [checkSessions] at h
    by_cases hc : elems.any (fun j => match j with | .str s => s = "sessions" | _ => false)
    · rw [if_pos hc] at h
      cases h
      exact Or.inr ⟨_, rfl⟩
    · rw [if_neg hc] at h
      cases h
      exact Or.inl ⟨_, rfl⟩
  | str s =>
    simp only [checkSessions] at h
    by_cases hc : (s.splitOn "sessions").length > 1
    · rw [if_pos hc] at h
      cases h
      exact Or.inr ⟨_, rfl⟩
    · rw [if_neg hc] at h
      cases h
      exact Or.inl ⟨_, rfl⟩
  | null => cases h; exact Or.inr ⟨_, rfl⟩
  | bool b => cases h; exact Or.inr ⟨_, rfl⟩
  | num n => cases h; exact Or.inr ⟨_, rfl⟩

theorem truthy_getD_some {fields : List (String × Json)} {k : String}
    (h : truthy (alistGetD fields k Json.null)) :
    ∃ v, alistGet fields k = some v ∧ truthy v := by
  rcases hv : alistGet fields k with _ | v
  · rw [alistGetD, hv] at h
    cases h
  · rw [alistGetD, hv] at h
    exact ⟨v, rfl, h⟩

theorem loadTurns_ok_of_good (ts : List Json) (h : ts.all goodTurnElem) :
    ∃ turns, loadTurns ts = .ok turns := by
  induction ts with
  | nil => exact ⟨[], rfl⟩
  | cons t ts ih =>
    rw [List.all_cons, Bool.and_eq_true] at h
    rcases ih h.2 with ⟨turns, hturns⟩
    cases t with
    | obj fields =>
      by_cases htr : truthy (alistGetD fields "text" Json.null)
      · have hsp : (alistGet fields "speaker").isSome := by
          have hg := h.1
          simp only [goodTurnElem, htr, Bool.not_true, Bool.false_or] at hg
          exact hg
        rcases Option.isSome_iff_exists.mp hsp with ⟨sp, hsp2⟩
        rcases truthy_getD_some htr with ⟨tx, htx, _⟩
        refine ⟨⟨sp, tx⟩ :: turns, ?_⟩
        simp only [loadTurns, htr, if_true, hsp2, htx, hturns]
      · refine ⟨turns, ?_⟩
        simp [loadTurns, htr, hturns]
    | null => exact ⟨turns, hturns⟩
    | bool b => exact ⟨turns, hturns⟩
    | num n => exact ⟨turns, hturns⟩
    | str s => exact ⟨turns, hturns⟩
    | arr elems => exact ⟨turns, hturns⟩

theorem loadTurns_ok_of_all_str (ts : List Json) (h : ∀ j ∈ ts, ∃ s, j = Json.str s) :
    ∃ turns, loadTurns ts = .ok turns := by
  refine loadTurns_ok_of_good ts ?_
  rw [List.all_eq_true]
  intro j hj
  rcases h j hj with ⟨s, hs⟩
  subst hs
  rfl

theorem loadItems_ok_of_good (xs : List Json) (h : ∀ item ∈ xs, goodItem item) :
    ∃ jss, loadItems xs = .ok jss := by
  induction xs with
  | nil => exact ⟨[], rfl⟩
  | cons item rest ih =>
    rcases ih (fun it hit => h it (List.mem_cons_of_mem _ hit)) with ⟨tail, htail⟩
    have hgood := h item (List.mem_cons_self _ _)
    cases item with
    | obj fields =>
      have hturns : ∃ telems, iterElems (alistGetD fields "turns" (Json.arr [])) = .ok telems ∧
          ∃ turns, loadTurns telems = .ok turns := by
        rcases hv : alistGetD fields "turns" (Json.arr []) with _ | b | n | s | telems | f2
        · simp only [goodItem, hv] at hgood
          cases hgood
        · simp only [goodItem, hv] at hgood
          cases hgood
        · simp only [goodItem, hv] at hgood
          cases hgood
        · exact ⟨_, rfl, loadTurns_ok_of_all_str _ (by
            intro j hj
            rcases List.mem_map.mp hj with ⟨c, _, hc⟩
            exact ⟨String.mk [c], hc.symm⟩)⟩
        · simp only [goodItem, hv] at hgood
          exact ⟨telems, rfl, loadTurns_ok_of_good telems hgood⟩
        · exact ⟨_, rfl, loadTurns_ok_of_all_str _ (by
            intro j hj
            rcases List.mem_map.mp hj with ⟨p, _, hp⟩
            exact ⟨p.1, hp.symm⟩)⟩
      rcases hturns with ⟨telems, hiter, turns, hlt⟩
      exact ⟨{ session_id := alistGetD fields "session_id" (Json.str "unknown"),
               source_file := alistGetD fields "source_file" (Json.str "unknown"),
               turns := turns } :: tail, by simp only [loadItems, hiter, hlt, htail]⟩
    | null => simp [goodItem] at hgood
    | bool b => simp [goodItem] at hgood
    | num n => simp [goodItem] at hgood
    | str s => simp [goodItem] at hgood
    | arr elems => simp [goodItem] at hgood

/-- C5 counterexample: a payload whose `sessions` key is present and a
list — so neither the missing-source nor the malformed-source condition
holds — still fails construction: a turn record with truthy `text` but no
`speaker` key raises a `KeyError`, contradicting "in all other cases
construction succeeds". -/
theorem c5_counterexample :
    loadCorpus true (some (Json.obj [("sessions",
      Json.arr [Json.obj [("turns", Json.arr [Json.obj [("text", Json.str "hi")]])]])]))
      = .error (.keyErr "speaker") := rfl

/-- C5 (amended): construction fails with the missing-source error exactly
when the backing file does not exist (the message directs the caller to the
upstream generation step); for a record payload it fails with the
malformed-source value error exactly when the `sessions` key is absent or
its value is not a list; and when the `sessions` value is a list whose
entries are all good (records whose `turns` value iterates without a type
error and in which every kept turn record carries a `speaker` key),
construction succeeds — but entries violating that goodness can still fail
with key/attribute/type errors. -/
theorem c5_construction_errors (parsed : Option Json) (fields : List (String × Json)) :
    loadCorpus false parsed
      = .error (.fileNotFound
          "Ground truth file not found. Run python process_ground_truth.py first.") ∧
    (∀ p2 msg, loadCorpus true p2 ≠ .error (.fileNotFound msg)) ∧
    ((∃ msg, loadCorpus true (some (Json.obj fields)) = .error (.valueErr msg)) ↔
      ∀ elems, alistGet fields "sessions" ≠ some (Json.arr elems)) ∧
    (∀ elems, alistGet fields "sessions" = some (Json.arr elems) →
      (∀ item ∈ elems, goodItem item) →
      ∃ jss, loadCorpus true (some (Json.obj fields)) = .ok jss) := by
  refine ⟨rfl, ?_, ?_, ?_⟩
  · intro p2 msg h
    cases p2 with
    | none => cases h
    | some raw =>
      simp only [loadCorpus, if_true] at h
      rcases hcs : checkSessions raw with e | items
      · rw [hcs] at h
        cases h
        rcases checkSessions_error_shape raw _ hcs with ⟨m, hm⟩ | ⟨m, hm⟩ <;> cases hm
      · rw [hcs] at h
        rcases loadItems_error_shape items _ h with ⟨k, hk⟩ | ⟨m, hm⟩ | ⟨m, hm⟩
        · cases hk
        · cases hm
        · cases hm
  · constructor
    · rintro ⟨msg, h⟩ elems hs
      simp only [loadCorpus, if_true, checkSessions, hs] at h
      rcases loadItems_error_shape elems _ h with ⟨k, hk⟩ | ⟨m, hm⟩ | ⟨m, hm⟩
      · cases hk
      · cases hm
      · cases hm
    · intro hne
      refine ⟨"ground_truth_sessions.json must contain a sessions list", ?_⟩
      simp only [loadCorpus, if_true, checkSessions]
      rcases hs : alistGet fields "sessions" with _ | v
      · rfl
      · cases v with
        | arr elems => exact absurd hs (hne elems)
        | null => rfl
        | bool b => rfl
        | num n => rfl
        | str s => rfl
        | obj f2 => rfl
  · intro elems hs hgood
    rcases loadItems_ok_of_good elems hgood with ⟨jss, hjss⟩
    refine ⟨jss, ?_⟩
    simp only [loadCorpus, if_true, checkSessions, hs, hjss]

/- ------------------------------------------------------------------ -/
/- Witnesses                                                           -/
/- ------------------------------------------------------------------ -/

theorem c1_witness :
    ∃ out, simulate_sessions (mkEngine [sampleSession] zeroSrc) 5 3 = .ok out := by
  have h := c1_empty_corpus_graceful zeroSrc 2 2 2 5 3 [sampleSession] (by decide)
  exact h.2.2.2.2.2.2.1

theorem c3_witness :
    ∃ res idx2, simGo [sampleSession] zeroSrc 5 3 0 = Except.ok (res, idx2) ∧
      res.length ≤ 5 := by
  rcases (c3_simulate_sessions [sampleSession] zeroSrc 5 3 (by decide)).1 with
    ⟨res, idx2, h1, _, h3, _⟩
  exact ⟨res, idx2, h1, h3⟩

theorem c4_witness :
    (analyze_sessions (mkEngine [sampleSession] zeroSrc)).1.top_keywords.length ≤ 12 ∧
    countOf (analyze_sessions (mkEngine [sampleSession] zeroSrc)).1.category_spread "money"
      = ((deriveProfiles [sampleSession]).filter
          fun p => "money" ∈ p.dominant_categories).length := by
  have h := c4_analyze_sessions [sampleSession] zeroSrc
  exact ⟨h.2.2.2.2.2.2.1, h.2.2.2.2.2.2.2.2.2.2.2 "money"⟩

theorem c5_witness :
    ∃ jss, loadCorpus true (some (Json.obj [("sessions", Json.arr [Json.obj []])]))
      = .ok jss := by
  have h := c5_construction_errors none [("sessions", Json.arr [Json.obj []])]
  exact h.2.2.2 [Json.obj []] rfl (by decide)

theorem c6_witness :
    1 ≤ (detect_categories [("pricing", 2)]).length ∧
    (detect_categories [("pricing", 2)]).length ≤ 3 := by
  have h := c6_detect_categories [("pricing", 2)] (by decide)
  exact ⟨h.1, h.2.1⟩

theorem c8_witness :
    total_turns [⟨"unknown", "unknown", [⟨"user", "hi"⟩]⟩]
      = ([Json.obj [("turns", Json.arr
          [Json.obj [("speaker", Json.str "user"), ("text", Json.str "hi")]])]].map
          keptTurnCount).sum := by
  have h := c8_totals
    [Json.obj [("turns", Json.arr
      [Json.obj [("speaker", Json.str "user"), ("text", Json.str "hi")]])]]
    [⟨Json.str "unknown", Json.str "unknown", [⟨Json.str "user", Json.str "hi"⟩]⟩]
    [⟨"unknown", "unknown", [⟨"user", "hi"⟩]⟩] rfl rfl
  exact h.2.2.2.2

theorem c9_witness :
    (generate_methods (mkEngine [sampleSession] zeroSrc) 2).1.length
      = min 2 ((analyze_sessions (mkEngine [sampleSession] zeroSrc)).1.category_spread).length ∧
    suggest_moves_for_category "general" = generalMoves := by
  have h := c9_generate_methods [sampleSession] zeroSrc 2
  exact ⟨h.2.1, h.2.2.2.2.2⟩

theorem c10_witness :
    loadItems [Json.obj []]
      = (loadItems ([] : List Json)).map
          (fun tail => ⟨Json.str "unknown", Json.str "unknown", ([] : List JTurn)⟩ :: tail) := by
  have h := c10_missing_fields_default [] []
  exact h.2.1 rfl
